import Mathlib

/-!
Shallow embedding of the `squab` counting engine (sources: `src/strand.rs`,
`src/record_pairs.rs`, `src/count.rs`).  Machine integers are modelled as
`Nat`/`Int` with explicit wrapping where it matters; Rust `io::Result` is
modelled with `Except`; Rust panics are modelled as error values; `HashMap`
and `HashSet` are modelled as association lists with a unique-key invariant
and `Finset` respectively.  Components of the repository that are not under
`src/` (the `Context` struct, the `Filter`, the CIGAR projector and the
interval tree) are modelled from the spec or abstracted as parameters, each
marked in its doc comment.
-/

namespace Squab

/-- Strand of a feature entry, from `src/strand.rs`. -/
inductive Strand
  | Forward
  | Reverse
  | Irrelevant
  | Unknown
deriving DecidableEq, Repr

/-- Display of a `Strand`, from `impl Display for Strand` in `src/strand.rs`. -/
def Strand.display : Strand → String
  | Strand.Forward => "+"
  | Strand.Reverse => "-"
  | Strand.Unknown => "?"
  | Strand.Irrelevant => "."

/-- Parsing of a `Strand`, from `impl FromStr for Strand` in `src/strand.rs`.
The `match` on string literals is written as a cascade of equality tests,
which is its compiled meaning. -/
def Strand.fromStr (s : String) : Except String Strand :=
  if s = "+" then Except.ok Strand.Forward
  else if s = "-" then Except.ok Strand.Reverse
  else if s = "?" then Except.ok Strand.Unknown
  else if s = "." then Except.ok Strand.Irrelevant
  else Except.error ("invalid strand '" ++ s ++ "'")

/-- Strand specification configuration value (`{None, Forward, Reverse}`),
used by `src/count.rs`. -/
inductive StrandSpecification
  | None
  | Forward
  | Reverse
deriving DecidableEq, Repr

/-- Pair position of a record, from `src/record_pairs.rs`. -/
inductive PairPosition
  | First
  | Second
deriving DecidableEq, Repr

/-- `PairPosition::mate`, from `src/record_pairs.rs`. -/
def PairPosition.mate : PairPosition → PairPosition
  | PairPosition.First => PairPosition.Second
  | PairPosition.Second => PairPosition.First

/-- Flag bit 0x40: this record is read 1 (`Flag::is_read_1`). -/
def isRead1 (f : Nat) : Bool := f.testBit 6

/-- Flag bit 0x80: this record is read 2 (`Flag::is_read_2`). -/
def isRead2 (f : Nat) : Bool := f.testBit 7

/-- Flag bit 0x4: the record is unmapped. -/
def isUnmapped (f : Nat) : Bool := f.testBit 2

/-- Flag bit 0x100: the record is a secondary alignment. -/
def isSecondary (f : Nat) : Bool := f.testBit 8

/-- Flag bit 0x800: the record is a supplementary alignment. -/
def isSupplementary (f : Nat) : Bool := f.testBit 11

/-- Flag bit 0x400: the record is a PCR/optical duplicate. -/
def isDuplicate (f : Nat) : Bool := f.testBit 10

/-- Pair-position classifier, from `impl From<Flag> for PairPosition` in
`src/record_pairs.rs`: `First` when `is_read_1`, else `Second` when
`is_read_2`, else a panic ("unknown pair position"), modelled as `none`. -/
def pairPositionOfFlag (f : Nat) : Option PairPosition :=
  if isRead1 f then some PairPosition.First
  else if isRead2 f then some PairPosition.Second
  else none

/-- Wrap an integer into the two's-complement range of `i32`. -/
def wrap32 (x : Int) : Int := (x + 2 ^ 31).emod (2 ^ 32) - 2 ^ 31

/-- Negation of an `i32` template length (`-record.tlen()`), with wrapping. -/
def negI32 (x : Int) : Int := wrap32 (-x)

/-- A decoded BAM record, as consumed by the core.  Fields follow the record
source contract: flags bitfield, 0-based position, signed reference ids, mate
coordinates, signed template length, mapping quality, read name (byte
string), CIGAR (a sequence of (op, len) codes, interpreted only by the
external projector), and the auxiliary "NH" tag. -/
structure Record where
  read_name : List Nat
  flags : Nat
  ref_id : Int
  pos : Int
  next_ref_id : Int
  next_pos : Int
  tlen : Int
  mapq : Nat
  cigar : List (Nat × Nat)
  nh : Option Nat
deriving DecidableEq, Repr

/-- `(record.position() + 1) as u64`, the 1-based start handed to the
projector in `src/count.rs`. -/
def startOf (r : Record) : Nat := ((r.pos + 1).emod (2 ^ 64)).toNat

/-- The 7-field buffer key `RecordKey` of `src/record_pairs.rs`. -/
abbrev RecordKey : Type := List Nat × PairPosition × Int × Int × Int × Int × Int

instance : DecidableEq (PairPosition × Int × Int × Int × Int × Int) :=
  instDecidableEqProd

instance : DecidableEq RecordKey :=
  instDecidableEqProd

/-- `key(record)` from `src/record_pairs.rs`; `none` models the classifier
panic on an unclassifiable flag. -/
def key (r : Record) : Option RecordKey :=
  (pairPositionOfFlag r.flags).map fun pp =>
    (r.read_name, pp, r.ref_id, r.pos, r.next_ref_id, r.next_pos, r.tlen)

/-- `mate_key(record)` from `src/record_pairs.rs`: swaps this record's
coordinates with the mate's, takes the mate pair position, negates tlen. -/
def mate_key (r : Record) : Option RecordKey :=
  (pairPositionOfFlag r.flags).map fun pp =>
    (r.read_name, pp.mate, r.next_ref_id, r.next_pos, r.ref_id, r.pos, negI32 r.tlen)

/-- Swap flag bits 0x40 and 0x80 of a flag word, leaving all other bits
unchanged (arithmetic decomposition: bits 0-5, bit 6, bit 7, bits >= 8). -/
def swapReadBits (f : Nat) : Nat :=
  f % 64 + 64 * (f / 128 % 2) + 128 * (f / 64 % 2) + 256 * (f / 256)

/-- Modelled from the spec: the mate record of a record (`mate_of`).  It
swaps this record's (reference id, position) with the mate's, replaces the
pair position by its mate (by exchanging the two mate flag bits), and
negates the template length.  No such function exists in the source; the
spec uses it to state the key/mate-key symmetry. -/
def mateOf (r : Record) : Record :=
  { r with
    flags := swapReadBits r.flags
    ref_id := r.next_ref_id
    pos := r.next_pos
    next_ref_id := r.ref_id
    next_pos := r.pos
    tlen := negI32 r.tlen }

/-- Error type for the fallible paths; every error raised by the embedded
code is Rust's `io::ErrorKind::InvalidData` (panics are also modelled as
errors, per the spec's "hard error" reading). -/
inductive IOErr
  | invalidData (msg : String)
deriving DecidableEq, Repr

/-- The pairing buffer: `HashMap<RecordKey, ByteRecord>` modelled as an
association list whose keys are unique (an invariant proved below). -/
abbrev Buf : Type := List (RecordKey × Record)

/-- `HashMap` lookup. -/
def bufLookup : Buf → RecordKey → Option Record
  | [], _ => none
  | (k, r) :: rest, k' => if k = k' then some r else bufLookup rest k'

/-- `HashMap::insert`: replaces the value stored under an equal key, else
appends a new entry. -/
def bufInsert : Buf → RecordKey → Record → Buf
  | [], k, r => [(k, r)]
  | (k', r') :: rest, k, r =>
    if k' = k then (k, r) :: rest else (k', r') :: bufInsert rest k r

/-- `HashMap::remove`: returns the removed value (if any) and the remaining
buffer. -/
def bufRemove : Buf → RecordKey → Option Record × Buf
  | [], _ => (none, [])
  | (k', r') :: rest, k =>
    if k' = k then (some r', rest)
    else
      let p := bufRemove rest k
      (p.1, (k', r') :: p.2)

/-- The buffer holds at most one record per key. -/
def distinctKeys (buf : Buf) : Prop := (buf.map Prod.fst).Nodup

/-- The `RecordPairs::next_pair` loop of `src/record_pairs.rs`, run over a
whole record stream: emits the mate pairs in order and returns the residual
buffer (the singletons).  The `primaryOnly` skip of secondary/supplementary
records is modelled from the spec (`src/count.rs` constructs the pair
iterator with a `primary_only` argument whose handling is not under
`src/`); `src/record_pairs.rs` itself corresponds to `primaryOnly = false`.
Read errors propagate; a classifier panic becomes an error. -/
def runPairsAux (primaryOnly : Bool) :
    List (Except IOErr Record) → Buf → Except IOErr (List (Record × Record) × Buf)
  | [], buf => Except.ok ([], buf)
  | Except.error e :: _, _ => Except.error e
  | Except.ok r :: rest, buf =>
    if primaryOnly && (isSecondary r.flags || isSupplementary r.flags) then
      runPairsAux primaryOnly rest buf
    else
      match mate_key r with
      | none => Except.error (IOErr.invalidData "unknown pair position")
      | some mk =>
        match bufRemove buf mk with
        | (some mate, buf') =>
          let pr :=
            match mk.2.1 with
            | PairPosition.First => (mate, r)
            | PairPosition.Second => (r, mate)
          (runPairsAux primaryOnly rest buf').map fun x => (pr :: x.1, x.2)
        | (none, _) =>
          match key r with
          | none => Except.error (IOErr.invalidData "unknown pair position")
          | some k => runPairsAux primaryOnly rest (bufInsert buf k r)

/-- `RecordPairs` run from an empty buffer, as constructed in
`src/record_pairs.rs`. -/
def recordPairs (primaryOnly : Bool) (recs : List (Except IOErr Record)) :
    Except IOErr (List (Record × Record) × Buf) :=
  runPairsAux primaryOnly recs []

/-- A genomic half-open interval `[lo, hi)` over `u64` coordinates. -/
abbrev GInterval : Type := Nat × Nat

/-- A feature entry `(gene_name, strand)`, the value type of the interval
trees (`crate::Entry`; its definition is not under `src/`, its shape is
fixed by the spec's feature index contract). -/
abbrev Entry : Type := String × Strand

/-- An interval tree, abstracted (the `interval_tree` crate is external) as
its `find` operation: the list of entries overlapping a query interval. -/
abbrev TreeT : Type := GInterval → List Entry

/-- The feature index: reference name to interval tree (`crate::Features`;
definition not under `src/`, shape fixed by the spec's contract). -/
abbrev Features : Type := String → Option TreeT

/-- The CIGAR-to-intervals projector, abstracted as a parameter (the
projector is `crate::CigarToIntervals`, not under `src/`): from a CIGAR, a
1-based start, the flags and the `invert` request, the list of
`(interval, effective_reverse)` items. -/
abbrev Projector : Type := List (Nat × Nat) → Nat → Nat → Bool → List (GInterval × Bool)

/-- Modelled from the spec: the `Context` aggregate (its module
`count/context.rs` is not under `src/`).  `counts` maps gene name to count
(association list standing for the hash map); the remaining fields are the
bookkeeping counters the spec lists. -/
structure Context where
  counts : List (String × Nat)
  no_feature : Nat
  ambiguous : Nat
  low_quality : Nat
  unmapped : Nat
  nonunique : Nat
  duplicate : Nat
  secondary : Nat
  supplementary : Nat
deriving DecidableEq, Repr

/-- `Context::default()`: empty counts, all counters zero. -/
def Context.default : Context :=
  { counts := []
    no_feature := 0
    ambiguous := 0
    low_quality := 0
    unmapped := 0
    nonunique := 0
    duplicate := 0
    secondary := 0
    supplementary := 0 }

/-- The count stored for a gene; an absent gene reads as 0 (the
`or_insert(0)` convention of `update_intersections`). -/
def countOf : List (String × Nat) → String → Nat
  | [], _ => 0
  | (k, v) :: rest, g => if k = g then v else countOf rest g

/-- `ctx.counts.entry(name).or_insert(0); *count += 1` from
`update_intersections` in `src/count.rs`. -/
def incrCount : List (String × Nat) → String → List (String × Nat)
  | [], g => [(g, 1)]
  | (k, v) :: rest, g =>
    if k = g then (k, v + 1) :: rest else (k, v) :: incrCount rest g

/-- Body of the inner loop of `find` in `src/count.rs`: possibly insert one
entry's gene name into the set, according to the strand rule. -/
def addEntry (spec : StrandSpecification) (isRev : Bool) (e : Entry)
    (set : Finset String) : Finset String :=
  match spec with
  | StrandSpecification.None => insert e.1 set
  | StrandSpecification.Forward | StrandSpecification.Reverse =>
    if (e.2 == Strand.Reverse && isRev) || (e.2 == Strand.Forward && !isRev) then
      insert e.1 set
    else
      set

/-- Inner loop of `find`: fold the entries overlapping one interval. -/
def findEntries (spec : StrandSpecification) (isRev : Bool) :
    List Entry → Finset String → Finset String
  | [], set => set
  | e :: rest, set => findEntries spec isRev rest (addEntry spec isRev e set)

/-- Outer loop of `find`: fold over the projector's intervals. -/
def findLoop (tree : TreeT) (spec : StrandSpecification) :
    List (GInterval × Bool) → Finset String → Finset String
  | [], set => set
  | (iv, isRev) :: rest, set =>
    findLoop tree spec rest (findEntries spec isRev (tree iv) set)

/-- `find` from `src/count.rs`: the gene-name set collected over all
projected intervals, under the strand rule. -/
def find (tree : TreeT) (intervals : List (GInterval × Bool))
    (spec : StrandSpecification) : Finset String :=
  findLoop tree spec intervals ∅

/-- `update_intersections` from `src/count.rs`: the accounting rule.  The
hash set's iteration order is unspecified; it is enumerated here in sorted
order (only the singleton branch iterates, so the order is immaterial). -/
def update_intersections (ctx : Context) (intersections : Finset String) : Context :=
  if intersections = ∅ then
    { ctx with no_feature := ctx.no_feature + 1 }
  else if intersections.card = 1 then
    { ctx with counts := (intersections.sort (· ≤ ·)).foldl incrCount ctx.counts }
  else if 1 < intersections.card then
    { ctx with ambiguous := ctx.ambiguous + 1 }
  else
    ctx

/-- The reference table: ordered `(name, length)` pairs, indexed by the
numeric reference id (`sam::header::ReferenceSequences`). -/
abbrev ReferenceSequences : Type := List (String × Nat)

/-- `get_reference` from `src/count.rs`: resolve a signed reference id to a
reference sequence, rejecting negative and out-of-range ids with
`InvalidData` errors. -/
def get_reference (reference_sequences : ReferenceSequences) (ref_id : Int) :
    Except IOErr (String × Nat) :=
  if ref_id < 0 then
    Except.error (IOErr.invalidData ("expected ref id >= 0, got " ++ toString ref_id))
  else
    match reference_sequences.get? ref_id.toNat with
    | some rs => Except.ok rs
    | none =>
      Except.error (IOErr.invalidData
        ("expected ref id < " ++ toString reference_sequences.length ++ ", got "
          ++ toString ref_id))

/-- `get_tree` from `src/count.rs`: resolve the interval tree for a
reference id; an id whose reference name is absent from the feature index
increments `no_feature` and yields no tree. -/
def get_tree (ctx : Context) (features : Features)
    (reference_sequences : ReferenceSequences) (ref_id : Int) :
    Except IOErr (Context × Option TreeT) :=
  match get_reference reference_sequences ref_id with
  | Except.error e => Except.error e
  | Except.ok rs =>
    match features rs.1 with
    | some t => Except.ok (ctx, some t)
    | none => Except.ok ({ ctx with no_feature := ctx.no_feature + 1 }, none)

/-- Modelled from the spec: the filter configuration (`count/filter.rs` is
not under `src/`). -/
structure Filter where
  min_mapping_quality : Nat
  with_secondary_records : Bool
  with_supplementary_records : Bool
  with_nonunique_records : Bool
deriving DecidableEq, Repr

/-- Modelled from the spec: the single-record filter (`Filter::filter`;
`count/filter.rs` is not under `src/`).  First match wins; each match
increments its counter and drops the record.  The duplicate check is
applied unconditionally (the spec's configuration surface has no duplicate
option); "nonunique" is an NH tag greater than 1. -/
def filterRecord (f : Filter) (ctx : Context) (r : Record) : Context × Bool :=
  if isUnmapped r.flags then
    ({ ctx with unmapped := ctx.unmapped + 1 }, true)
  else if isSecondary r.flags && !f.with_secondary_records then
    ({ ctx with secondary := ctx.secondary + 1 }, true)
  else if isSupplementary r.flags && !f.with_supplementary_records then
    ({ ctx with supplementary := ctx.supplementary + 1 }, true)
  else if r.mapq < f.min_mapping_quality then
    ({ ctx with low_quality := ctx.low_quality + 1 }, true)
  else if isDuplicate r.flags then
    ({ ctx with duplicate := ctx.duplicate + 1 }, true)
  else if !f.with_nonunique_records && (match r.nh with | some n => decide (1 < n) | none => false) then
    ({ ctx with nonunique := ctx.nonunique + 1 }, true)
  else
    (ctx, false)

/-- Modelled from the spec: the pair filter (`Filter::filter_pair`): each
mate runs the single-record filter; the first dropping mate's counter is
incremented once and the pair is dropped. -/
def filterPair (f : Filter) (ctx : Context) (r1 r2 : Record) : Context × Bool :=
  let p1 := filterRecord f ctx r1
  if p1.2 then p1
  else
    let p2 := filterRecord f ctx r2
    if p2.2 then p2 else (ctx, false)

/-- The `invert` request for mate 1 in `count_paired_end_records`
(`src/count.rs`): `match strand_specification { Reverse => true, _ => false }`.
The same expression computes the single-end request in
`count_single_end_record`. -/
def mate1Reverse (spec : StrandSpecification) : Bool :=
  match spec with
  | StrandSpecification.Reverse => true
  | _ => false

/-- The `invert` request for mate 2 in `count_paired_end_records`
(`src/count.rs`): `match strand_specification { Reverse => false, _ => true }`. -/
def mate2Reverse (spec : StrandSpecification) : Bool :=
  match spec with
  | StrandSpecification.Reverse => false
  | _ => true

/-- The `invert` request of the singleton path in
`count_paired_end_record_singletons` (`src/count.rs`): the pair-position
bit, then inverted when the strand specification is `Reverse`. -/
def singletonReverse (pp : PairPosition) (spec : StrandSpecification) : Bool :=
  let reverse :=
    match pp with
    | PairPosition.First => false
    | PairPosition.Second => true
  match spec with
  | StrandSpecification.Reverse => !reverse
  | _ => reverse

/-- `count_single_end_record` from `src/count.rs`. -/
def count_single_end_record (proj : Projector) (ctx : Context)
    (features : Features) (reference_sequences : ReferenceSequences)
    (fil : Filter) (spec : StrandSpecification) (record : Record) :
    Except IOErr Context :=
  let p := filterRecord fil ctx record
  if p.2 then Except.ok p.1
  else
    let intervals := proj record.cigar (startOf record) record.flags (mate1Reverse spec)
    match get_tree p.1 features reference_sequences record.ref_id with
    | Except.error e => Except.error e
    | Except.ok (ctx, none) => Except.ok ctx
    | Except.ok (ctx, some tree) =>
      Except.ok (update_intersections ctx (find tree intervals spec))

/-- The record loop of `count_single_end_records`. -/
def countSingleLoop (proj : Projector) (features : Features)
    (reference_sequences : ReferenceSequences) (fil : Filter)
    (spec : StrandSpecification) :
    List (Except IOErr Record) → Context → Except IOErr Context
  | [], ctx => Except.ok ctx
  | Except.error e :: _, _ => Except.error e
  | Except.ok record :: rest, ctx =>
    match count_single_end_record proj ctx features reference_sequences fil spec record with
    | Except.error e => Except.error e
    | Except.ok ctx' => countSingleLoop proj features reference_sequences fil spec rest ctx'

/-- `count_single_end_records` from `src/count.rs`. -/
def count_single_end_records (proj : Projector) (records : List (Except IOErr Record))
    (features : Features) (reference_sequences : ReferenceSequences)
    (fil : Filter) (spec : StrandSpecification) : Except IOErr Context :=
  countSingleLoop proj features reference_sequences fil spec records Context.default

/-- Body of the pair loop of `count_paired_end_records` (`src/count.rs`):
filter the pair, project and intersect each mate with its own `invert`
request, union the gene sets, apply the accounting rule. -/
def processPair (proj : Projector) (features : Features)
    (reference_sequences : ReferenceSequences) (fil : Filter)
    (spec : StrandSpecification) (ctx : Context) (r1 r2 : Record) :
    Except IOErr Context :=
  let p := filterPair fil ctx r1 r2
  if p.2 then Except.ok p.1
  else
    let intervals1 := proj r1.cigar (startOf r1) r1.flags (mate1Reverse spec)
    match get_tree p.1 features reference_sequences r1.ref_id with
    | Except.error e => Except.error e
    | Except.ok (ctx, none) => Except.ok ctx
    | Except.ok (ctx, some tree1) =>
      let set1 := find tree1 intervals1 spec
      let intervals2 := proj r2.cigar (startOf r2) r2.flags (mate2Reverse spec)
      match get_tree ctx features reference_sequences r2.ref_id with
      | Except.error e => Except.error e
      | Except.ok (ctx, none) => Except.ok ctx
      | Except.ok (ctx, some tree2) =>
        Except.ok (update_intersections ctx (set1 ∪ find tree2 intervals2 spec))

/-- The pair loop of `count_paired_end_records`. -/
def countPairsLoop (proj : Projector) (features : Features)
    (reference_sequences : ReferenceSequences) (fil : Filter)
    (spec : StrandSpecification) :
    List (Record × Record) → Context → Except IOErr Context
  | [], ctx => Except.ok ctx
  | (r1, r2) :: rest, ctx =>
    match processPair proj features reference_sequences fil spec ctx r1 r2 with
    | Except.error e => Except.error e
    | Except.ok ctx' => countPairsLoop proj features reference_sequences fil spec rest ctx'

/-- `count_paired_end_records` from `src/count.rs`: pair the stream
(`primary_only` when both the secondary and supplementary filters are on),
process each pair, and return the Context with the residual buffer (whose
drain feeds the singleton path). -/
def count_paired_end_records (proj : Projector) (records : List (Except IOErr Record))
    (features : Features) (reference_sequences : ReferenceSequences)
    (fil : Filter) (spec : StrandSpecification) :
    Except IOErr (Context × Buf) :=
  let primary_only := !fil.with_secondary_records && !fil.with_supplementary_records
  match runPairsAux primary_only records [] with
  | Except.error e => Except.error e
  | Except.ok (pairs, buf) =>
    match countPairsLoop proj features reference_sequences fil spec pairs Context.default with
    | Except.error e => Except.error e
    | Except.ok ctx => Except.ok (ctx, buf)

/-- The record loop of `count_paired_end_record_singletons` (`src/count.rs`):
like the single-end loop, but with the per-mate `invert` bit derived from
the pair position; an unclassifiable pair position is a hard error. -/
def countSingletonsLoop (proj : Projector) (features : Features)
    (reference_sequences : ReferenceSequences) (fil : Filter)
    (spec : StrandSpecification) :
    List (Except IOErr Record) → Context → Except IOErr Context
  | [], ctx => Except.ok ctx
  | Except.error e :: _, _ => Except.error e
  | Except.ok record :: rest, ctx =>
    let p := filterRecord fil ctx record
    if p.2 then countSingletonsLoop proj features reference_sequences fil spec rest p.1
    else
      match pairPositionOfFlag record.flags with
      | none => Except.error (IOErr.invalidData "record is neither read 1 nor 2")
      | some pp =>
        let intervals :=
          proj record.cigar (startOf record) record.flags (singletonReverse pp spec)
        match get_tree p.1 features reference_sequences record.ref_id with
        | Except.error e => Except.error e
        | Except.ok (ctx, none) =>
          countSingletonsLoop proj features reference_sequences fil spec rest ctx
        | Except.ok (ctx, some tree) =>
          countSingletonsLoop proj features reference_sequences fil spec rest
            (update_intersections ctx (find tree intervals spec))

/-- `count_paired_end_record_singletons` from `src/count.rs`. -/
def count_paired_end_record_singletons (proj : Projector)
    (records : List (Except IOErr Record)) (features : Features)
    (reference_sequences : ReferenceSequences) (fil : Filter)
    (spec : StrandSpecification) : Except IOErr Context :=
  countSingletonsLoop proj features reference_sequences fil spec records Context.default

/-- Every gene present in the counts map has a count of at least 1. -/
def countsPos (ctx : Context) : Prop := ∀ p ∈ ctx.counts, 1 ≤ p.2

/-- A concrete mate-1 record (read name "A", flags 0x40) used to evaluate
the theorems below at concrete inputs. -/
def wRecA : Record :=
  { read_name := [65], flags := 64, ref_id := 0, pos := 9, next_ref_id := 0,
    next_pos := 99, tlen := 100, mapq := 255, cigar := [(0, 5)], nh := none }

/-- The mate-2 record of `wRecA` (flags 0x80, coordinates swapped, template
length negated). -/
def wRecB : Record :=
  { read_name := [65], flags := 128, ref_id := 0, pos := 99, next_ref_id := 0,
    next_pos := 9, tlen := -100, mapq := 255, cigar := [(0, 5)], nh := none }

/-- A mapped record with neither mate flag bit set (flags 0). -/
def wRecC : Record :=
  { read_name := [66], flags := 0, ref_id := 0, pos := 9, next_ref_id := -1,
    next_pos := -1, tlen := 0, mapq := 255, cigar := [(0, 5)], nh := none }

/-- A trivial concrete projector (yields no intervals). -/
def wProj : Projector := fun _ _ _ _ => []

/-- A concrete reference table with a single reference. -/
def wRefs : ReferenceSequences := [("chr1", 7)]

/-- A concrete empty feature index. -/
def wFeatures : Features := fun _ => none

/-- A concrete one-entry interval tree. -/
def wTree : TreeT := fun _ => [("GENE_A", Strand.Forward)]

/-- A concrete feature index holding `wTree` under "chr1". -/
def wFeaturesA : Features := fun n => if n = "chr1" then some wTree else none

/-- A concrete fully permissive filter configuration. -/
def wFilter : Filter :=
  { min_mapping_quality := 0
    with_secondary_records := true
    with_supplementary_records := true
    with_nonunique_records := true }

/-! ## Theorems -/

/-- C9: strand parsing and display form an exact round-trip on the four
tokens `+`, `-`, `?`, `.`; every other input fails with a textual error;
display is the inverse of parsing. -/
theorem C9_strand_round_trip :
    (∀ s : Strand, Strand.fromStr s.display = Except.ok s)
    ∧ Strand.fromStr "+" = Except.ok Strand.Forward
    ∧ Strand.fromStr "-" = Except.ok Strand.Reverse
    ∧ Strand.fromStr "?" = Except.ok Strand.Unknown
    ∧ Strand.fromStr "." = Except.ok Strand.Irrelevant
    ∧ (∀ t : String, t ≠ "+" → t ≠ "-" → t ≠ "?" → t ≠ "." →
        Strand.fromStr t = Except.error ("invalid strand '" ++ t ++ "'"))
    ∧ (∀ (t : String) (s : Strand), Strand.fromStr t = Except.ok s → s.display = t) := by
  refine ⟨?_, rfl, rfl, rfl, rfl, ?_, ?_⟩
  · intro s
    cases s <;> rfl
  · intro t h1 h2 h3 h4
    simp [Strand.fromStr, h1, h2, h3, h4]
  · intro t s h
    unfold Strand.fromStr at h
    split_ifs at h with h1 h2 h3 h4
    · cases h; subst h1; rfl
    · cases h; subst h2; rfl
    · cases h; subst h3; rfl
    · cases h; subst h4; rfl

/-- C9 witness: the theorem evaluated at concrete tokens. -/
theorem C9_strand_round_trip_witness :
    Strand.fromStr (Strand.display Strand.Reverse) = Except.ok Strand.Reverse
    ∧ Strand.fromStr "x" = Except.error ("invalid strand '" ++ "x" ++ "'")
    ∧ Strand.display Strand.Unknown = "?" :=
  ⟨C9_strand_round_trip.1 Strand.Reverse,
   C9_strand_round_trip.2.2.2.2.2.1 "x" (by decide) (by decide) (by decide) (by decide),
   C9_strand_round_trip.2.2.2.2.2.2 "?" Strand.Unknown (by rfl)⟩

/-- C7: the inversion bit handed to the projector is `spec == Reverse` for
mate 1, its negation for mate 2, and the pair-position bit XOR
`spec == Reverse` on the singleton path; mate 2's bit is always the
negation of mate 1's. -/
theorem C7_inversion_bits :
    ∀ (spec : StrandSpecification) (pp : PairPosition),
      mate1Reverse spec = decide (spec = StrandSpecification.Reverse)
      ∧ mate2Reverse spec = !decide (spec = StrandSpecification.Reverse)
      ∧ singletonReverse pp spec
          = xor (decide (pp = PairPosition.Second)) (decide (spec = StrandSpecification.Reverse))
      ∧ mate2Reverse spec = !mate1Reverse spec := by
  intro spec pp
  cases spec <;> cases pp <;> exact ⟨by decide, by decide, by decide, by decide⟩

/-- C5 counterexample: a flag with BOTH mate bits set (0xC0 = 192) does not
fail; the classifier returns `First`, contradicting the claim that a
both-bits flag is rejected. -/
theorem C5_counterexample :
    isRead1 192 = true ∧ isRead2 192 = true
    ∧ pairPositionOfFlag 192 = some PairPosition.First := by
  decide

/-- C5 (amended): the classifier returns `First` whenever the mate-1 bit is
set (even if the mate-2 bit is also set), `Second` when the mate-2 bit is
set and the mate-1 bit is not, and fails only when neither bit is set; the
singleton counting path surfaces that failure as the error "record is
neither read 1 nor 2". -/
theorem C5_classifier_amended :
    ∀ f : Nat,
      (isRead1 f = true → pairPositionOfFlag f = some PairPosition.First)
      ∧ (isRead1 f = false → isRead2 f = true →
          pairPositionOfFlag f = some PairPosition.Second)
      ∧ (isRead1 f = false → isRead2 f = false → pairPositionOfFlag f = none)
      ∧ (∀ (proj : Projector) (feats : Features) (refs : ReferenceSequences)
          (fil : Filter) (spec : StrandSpecification)
          (rest : List (Except IOErr Record)) (ctx : Context) (record : Record),
          (filterRecord fil ctx record).2 = false →
          pairPositionOfFlag record.flags = none →
          countSingletonsLoop proj feats refs fil spec (Except.ok record :: rest) ctx
            = Except.error (IOErr.invalidData "record is neither read 1 nor 2")) := by
  intro f
  refine ⟨?_, ?_, ?_, ?_⟩
  · intro h1
    simp [pairPositionOfFlag, h1]
  · intro h1 h2
    simp [pairPositionOfFlag, h1, h2]
  · intro h1 h2
    simp [pairPositionOfFlag, h1, h2]
  · intro proj feats refs fil spec rest ctx record hfil hpp
    simp [countSingletonsLoop, hfil, hpp]

/-- C5 witness: the amended classifier evaluated at concrete flags, and the
singleton loop failing on a concrete unclassifiable record. -/
theorem C5_classifier_amended_witness :
    pairPositionOfFlag 64 = some PairPosition.First
    ∧ pairPositionOfFlag 128 = some PairPosition.Second
    ∧ pairPositionOfFlag 0 = none
    ∧ countSingletonsLoop wProj wFeatures wRefs wFilter StrandSpecification.None
        [Except.ok wRecC] Context.default
        = Except.error (IOErr.invalidData "record is neither read 1 nor 2") :=
  ⟨(C5_classifier_amended 64).1 (by decide),
   (C5_classifier_amended 128).2.1 (by decide) (by decide),
   (C5_classifier_amended 0).2.2.1 (by decide) (by decide),
   (C5_classifier_amended 0).2.2.2 wProj wFeatures wRefs wFilter
     StrandSpecification.None [] Context.default wRecC (by decide) (by decide)⟩

/-- Swapping the two mate bits moves bit 7 into bit 6. -/
theorem isRead1_swapReadBits (f : Nat) : isRead1 (swapReadBits f) = isRead2 f := by
  unfold isRead1 isRead2 swapReadBits
  simp only [Nat.testBit_to_div_mod]
  rw [decide_eq_decide]
  omega

/-- Swapping the two mate bits moves bit 6 into bit 7. -/
theorem isRead2_swapReadBits (f : Nat) : isRead2 (swapReadBits f) = isRead1 f := by
  unfold isRead1 isRead2 swapReadBits
  simp only [Nat.testBit_to_div_mod]
  rw [decide_eq_decide]
  omega

/-- C3: for a record with a classifiable pair position (exactly one of the
two mate flag bits set), the 7-field key of the mate record equals this
record's mate key, componentwise — so the buffer lookup succeeds when the
mate arrives. -/
theorem C3_key_of_mate (r : Record) (h : isRead1 r.flags ≠ isRead2 r.flags) :
    key (mateOf r) = mate_key r := by
  have h6 := isRead1_swapReadBits r.flags
  have h7 := isRead2_swapReadBits r.flags
  cases hb1 : isRead1 r.flags <;> cases hb2 : isRead2 r.flags
  · exact absurd (hb1.trans hb2.symm) h
  · simp [key, mate_key, mateOf, pairPositionOfFlag, h6, h7, hb1, hb2, PairPosition.mate]
  · simp [key, mate_key, mateOf, pairPositionOfFlag, h6, h7, hb1, hb2, PairPosition.mate]
  · exact absurd (hb1.trans hb2.symm) h

/-- C3 witness: the key/mate-key symmetry evaluated at a concrete mate-1
record. -/
theorem C3_key_of_mate_witness :
    isRead1 wRecA.flags ≠ isRead2 wRecA.flags ∧ key (mateOf wRecA) = mate_key wRecA :=
  ⟨by decide, C3_key_of_mate wRecA (by decide)⟩

/-- C6: the tree resolver rejects negative and out-of-range reference ids
with `InvalidData` errors; for an in-range id whose reference name is
absent from the feature index it increments `no_feature` by exactly 1 and
yields no tree; when the name is present it yields the tree with the
Context unchanged. -/
theorem C6_get_tree :
    ∀ (ctx : Context) (features : Features) (refs : ReferenceSequences) (ref_id : Int),
      (ref_id < 0 →
        ∃ m, get_tree ctx features refs ref_id = Except.error (IOErr.invalidData m))
      ∧ (0 ≤ ref_id → (refs.length : Int) ≤ ref_id →
        ∃ m, get_tree ctx features refs ref_id = Except.error (IOErr.invalidData m))
      ∧ (∀ name len, 0 ≤ ref_id → refs.get? ref_id.toNat = some (name, len) →
          (features name = none →
            get_tree ctx features refs ref_id
              = Except.ok ({ ctx with no_feature := ctx.no_feature + 1 }, none))
          ∧ (∀ t, features name = some t →
            get_tree ctx features refs ref_id = Except.ok (ctx, some t))) := by
  intro ctx features refs ref_id
  refine ⟨?_, ?_, ?_⟩
  · intro hneg
    refine ⟨"expected ref id >= 0, got " ++ toString ref_id, ?_⟩
    simp [get_tree, get_reference, hneg]
  · intro hpos hlen
    have hnone : refs.get? ref_id.toNat = none := by
      rw [List.get?_eq_none]
      omega
    refine ⟨"expected ref id < " ++ toString refs.length ++ ", got " ++ toString ref_id, ?_⟩
    rw [get_tree, get_reference, if_neg (by omega), hnone]
  · intro name len hpos hget
    rw [get_tree, get_reference, if_neg (by omega), hget]
    constructor
    · intro habs
      simp [habs]
    · intro t hsome
      simp [hsome]

/-- C6 witness: the three behaviours of the tree resolver at concrete
inputs. -/
theorem C6_get_tree_witness :
    (∃ m, get_tree Context.default wFeaturesA wRefs (-2)
      = Except.error (IOErr.invalidData m))
    ∧ (∃ m, get_tree Context.default wFeaturesA wRefs 5
      = Except.error (IOErr.invalidData m))
    ∧ get_tree Context.default wFeatures wRefs 0
      = Except.ok ({ Context.default with no_feature := Context.default.no_feature + 1 }, none)
    ∧ get_tree Context.default wFeaturesA wRefs 0 = Except.ok (Context.default, some wTree) :=
  ⟨(C6_get_tree Context.default wFeaturesA wRefs (-2)).1 (by decide),
   (C6_get_tree Context.default wFeaturesA wRefs 5).2.1 (by decide) (by decide),
   ((C6_get_tree Context.default wFeatures wRefs 0).2.2 "chr1" 7 (by decide) (by rfl)).1 (by rfl),
   ((C6_get_tree Context.default wFeaturesA wRefs 0).2.2 "chr1" 7 (by decide) (by rfl)).2 wTree (by rfl)⟩

/-- Incrementing a gene's count raises its stored count by one (creating it
at 1 when absent, the `or_insert(0)` then `+= 1` path). -/
theorem countOf_incrCount_self (c : List (String × Nat)) (g : String) :
    countOf (incrCount c g) g = countOf c g + 1 := by
  induction c with
  | nil => simp [incrCount, countOf]
  | cons p rest ih =>
    obtain ⟨k, v⟩ := p
    by_cases hk : k = g
    · simp [incrCount, countOf, hk]
    · simp [incrCount, countOf, hk, ih]

/-- Incrementing a gene's count leaves every other gene's count unchanged. -/
theorem countOf_incrCount_ne (c : List (String × Nat)) (g g' : String)
    (h : g' ≠ g) : countOf (incrCount c g) g' = countOf c g' := by
  have h' : g ≠ g' := fun hh => h hh.symm
  induction c with
  | nil => simp [incrCount, countOf, h']
  | cons p rest ih =>
    obtain ⟨k, v⟩ := p
    by_cases hk : k = g
    · subst hk
      simp [incrCount, countOf, h']
    · simp [incrCount, countOf, hk, ih]

/-- C1: the accounting rule.  An empty gene set increments `no_feature` and
changes nothing else; a singleton set increments that gene's count by one
(creating it at 1 when absent) and leaves `no_feature`, `ambiguous` and all
other genes unchanged; a set of two or more genes increments `ambiguous`
and changes nothing else. -/
theorem C1_accounting :
    ∀ (ctx : Context) (S : Finset String),
      (S = ∅ →
        update_intersections ctx S = { ctx with no_feature := ctx.no_feature + 1 })
      ∧ (∀ g, S = {g} →
          countOf (update_intersections ctx S).counts g = countOf ctx.counts g + 1
          ∧ (∀ g', g' ≠ g →
              countOf (update_intersections ctx S).counts g' = countOf ctx.counts g')
          ∧ (update_intersections ctx S).no_feature = ctx.no_feature
          ∧ (update_intersections ctx S).ambiguous = ctx.ambiguous)
      ∧ (2 ≤ S.card →
        update_intersections ctx S = { ctx with ambiguous := ctx.ambiguous + 1 }) := by
  intro ctx S
  refine ⟨?_, ?_, ?_⟩
  · intro h
    subst h
    simp [update_intersections]
  · intro g h
    subst h
    have hne : ({g} : Finset String) ≠ ∅ := Finset.singleton_ne_empty g
    have hcard : ({g} : Finset String).card = 1 := Finset.card_singleton g
    have hsort : ({g} : Finset String).sort (· ≤ ·) = [g] := Finset.sort_singleton _ g
    simp only [update_intersections, if_neg hne, hcard, if_pos rfl, hsort, List.foldl]
    exact ⟨countOf_incrCount_self ctx.counts g,
      fun g' hg' => countOf_incrCount_ne ctx.counts g g' hg', rfl, rfl⟩
  · intro h
    have hne : S ≠ ∅ := by
      intro hS
      subst hS
      simp at h
    have hcard : ¬ S.card = 1 := by omega
    have h2 : 1 < S.card := by omega
    simp [update_intersections, hne, hcard, h2]

/-- C1 witness: the accounting rule evaluated at the empty set, a singleton
and a two-element set. -/
theorem C1_accounting_witness :
    update_intersections Context.default ∅
      = { Context.default with no_feature := Context.default.no_feature + 1 }
    ∧ countOf (update_intersections Context.default {"g"}).counts "g"
      = countOf Context.default.counts "g" + 1
    ∧ update_intersections Context.default ({"a", "b"} : Finset String)
      = { Context.default with ambiguous := Context.default.ambiguous + 1 } :=
  ⟨(C1_accounting Context.default ∅).1 rfl,
   ((C1_accounting Context.default {"g"}).2.1 "g" rfl).1,
   (C1_accounting Context.default ({"a", "b"} : Finset String)).2.2 (by decide)⟩

/-- Membership after the per-entry step of `find`: the gene name is added
exactly when the strand rule accepts the entry. -/
theorem mem_addEntry (spec : StrandSpecification) (isRev : Bool) (e : Entry)
    (set : Finset String) (g : String) :
    g ∈ addEntry spec isRev e set ↔
      g ∈ set ∨ (g = e.1 ∧
        (spec = StrandSpecification.None
          ∨ (e.2 = Strand.Reverse ∧ isRev = true)
          ∨ (e.2 = Strand.Forward ∧ isRev = false))) := by
  obtain ⟨name, st⟩ := e
  cases spec <;> cases st <;> cases isRev <;>
    simp [addEntry, Finset.mem_insert] <;> tauto

/-- Membership after the inner entry loop of `find`. -/
theorem mem_findEntries (spec : StrandSpecification) (isRev : Bool) :
    ∀ (entries : List Entry) (set : Finset String) (g : String),
      g ∈ findEntries spec isRev entries set ↔
        g ∈ set ∨ ∃ e ∈ entries, g = e.1 ∧
          (spec = StrandSpecification.None
            ∨ (e.2 = Strand.Reverse ∧ isRev = true)
            ∨ (e.2 = Strand.Forward ∧ isRev = false)) := by
  intro entries
  induction entries with
  | nil => simp [findEntries]
  | cons e rest ih =>
    intro set g
    rw [findEntries, ih, mem_addEntry]
    simp only [List.mem_cons]
    constructor
    · rintro ((hs | hmatch) | ⟨e', he', hrest⟩)
      · exact Or.inl hs
      · exact Or.inr ⟨e, Or.inl rfl, hmatch⟩
      · exact Or.inr ⟨e', Or.inr he', hrest⟩
    · rintro (hs | ⟨e', (rfl | he'), hrest⟩)
      · exact Or.inl (Or.inl hs)
      · exact Or.inl (Or.inr hrest)
      · exact Or.inr ⟨e', he', hrest⟩

/-- Membership after the outer interval loop of `find`. -/
theorem mem_findLoop (tree : TreeT) (spec : StrandSpecification) :
    ∀ (intervals : List (GInterval × Bool)) (set : Finset String) (g : String),
      g ∈ findLoop tree spec intervals set ↔
        g ∈ set ∨ ∃ iv isRev, (iv, isRev) ∈ intervals ∧ ∃ e ∈ tree iv, g = e.1 ∧
          (spec = StrandSpecification.None
            ∨ (e.2 = Strand.Reverse ∧ isRev = true)
            ∨ (e.2 = Strand.Forward ∧ isRev = false)) := by
  intro intervals
  induction intervals with
  | nil => simp [findLoop]
  | cons p rest ih =>
    obtain ⟨iv, isRev⟩ := p
    intro set g
    rw [findLoop, ih, mem_findEntries]
    simp only [List.mem_cons, Prod.mk.injEq]
    constructor
    · rintro ((hs | ⟨e, he, hrest⟩) | ⟨iv', isRev', hmem, hrest⟩)
      · exact Or.inl hs
      · exact Or.inr ⟨iv, isRev, Or.inl ⟨rfl, rfl⟩, e, he, hrest⟩
      · exact Or.inr ⟨iv', isRev', Or.inr hmem, hrest⟩
    · rintro (hs | ⟨iv', isRev', (⟨h1, h2⟩ | hmem), hrest⟩)
      · exact Or.inl (Or.inl hs)
      · subst h1
        subst h2
        exact Or.inl (Or.inr hrest)
      · exact Or.inr ⟨iv', isRev', hmem, hrest⟩

/-- C2: a gene name is in the set produced by `find` exactly when some
projected interval overlaps a tree entry with that name whose strand passes
the strand rule: under specification `None` every overlapping entry is
accepted; under `Forward` or `Reverse` an entry is accepted iff its strand
is `Reverse` and the interval's effective-orientation bit is set, or its
strand is `Forward` and the bit is clear — so entries with strand `Unknown`
or `Irrelevant` are never added under a strand-sensitive configuration. -/
theorem C2_find_strand_rule :
    ∀ (tree : TreeT) (intervals : List (GInterval × Bool))
      (spec : StrandSpecification) (g : String),
      g ∈ find tree intervals spec ↔
        ∃ iv isRev, (iv, isRev) ∈ intervals ∧ ∃ st : Strand, (g, st) ∈ tree iv ∧
          (spec = StrandSpecification.None
            ∨ (st = Strand.Reverse ∧ isRev = true)
            ∨ (st = Strand.Forward ∧ isRev = false)) := by
  intro tree intervals spec g
  rw [find, mem_findLoop]
  simp only [Finset.not_mem_empty, false_or]
  constructor
  · rintro ⟨iv, isRev, hmem, e, he, heq, hrule⟩
    refine ⟨iv, isRev, hmem, e.2, ?_, hrule⟩
    rw [heq]
    exact he
  · rintro ⟨iv, isRev, hmem, st, hst, hrule⟩
    exact ⟨iv, isRev, hmem, (g, st), hst, rfl, hrule⟩

/-- A record removed from the buffer was stored in it under that key. -/
theorem bufRemove_fst_mem :
    ∀ (buf : Buf) (k : RecordKey) (m : Record),
      (bufRemove buf k).1 = some m → (k, m) ∈ buf := by
  intro buf k m
  induction buf with
  | nil => simp [bufRemove]
  | cons p rest ih =>
    obtain ⟨k', r'⟩ := p
    by_cases hk : k' = k <;> simp [bufRemove, hk] <;> aesop

/-- Removal keeps a sub-sequence of the buffer. -/
theorem bufRemove_snd_sublist :
    ∀ (buf : Buf) (k : RecordKey), ((bufRemove buf k).2).Sublist buf := by
  intro buf k
  induction buf with
  | nil => simp [bufRemove]
  | cons p rest ih =>
    obtain ⟨k', r'⟩ := p
    by_cases hk : k' = k
    · subst hk
      simp only [bufRemove, if_pos rfl]
      exact List.sublist_cons_self (k', r') rest
    · simpa [bufRemove, hk] using List.Sublist.cons₂ (k', r') ih

/-- Entries surviving a removal were in the buffer. -/
theorem bufRemove_snd_mem (buf : Buf) (k : RecordKey) (p : RecordKey × Record)
    (h : p ∈ (bufRemove buf k).2) : p ∈ buf :=
  (bufRemove_snd_sublist buf k).mem h

/-- Entries of the buffer after an insertion. -/
theorem bufInsert_mem :
    ∀ (buf : Buf) (k : RecordKey) (r : Record) (p : RecordKey × Record),
      p ∈ bufInsert buf k r → p ∈ buf ∨ p = (k, r) := by
  intro buf k r p
  induction buf with
  | nil => simp [bufInsert]
  | cons q rest ih =>
    obtain ⟨k', r'⟩ := q
    by_cases hk : k' = k <;> simp [bufInsert, hk, List.mem_cons] <;> aesop

/-- Looking up the inserted key yields the inserted record (overwrite). -/
theorem bufLookup_bufInsert_self :
    ∀ (buf : Buf) (k : RecordKey) (r : Record),
      bufLookup (bufInsert buf k r) k = some r := by
  intro buf k r
  induction buf with
  | nil => simp [bufInsert, bufLookup]
  | cons q rest ih =>
    obtain ⟨k', r'⟩ := q
    by_cases hk : k' = k
    · simp [bufInsert, bufLookup, hk]
    · simp [bufInsert, bufLookup, hk, ih]

/-- Looking up any other key is unaffected by an insertion. -/
theorem bufLookup_bufInsert_ne :
    ∀ (buf : Buf) (k k' : RecordKey) (r : Record), k' ≠ k →
      bufLookup (bufInsert buf k r) k' = bufLookup buf k' := by
  intro buf k k' r hne
  have hne' : ¬ k = k' := fun h => hne h.symm
  induction buf with
  | nil => simp [bufInsert, bufLookup, hne']
  | cons q rest ih =>
    obtain ⟨k0, r0⟩ := q
    by_cases hk : k0 = k
    · subst hk
      simp [bufInsert, bufLookup, hne']
    · by_cases hk' : k0 = k'
      · simp [bufInsert, bufLookup, hk, hk', hne, hne']
      · simp [bufInsert, bufLookup, hk, hk', ih]

/-- Keys of the buffer after an insertion. -/
theorem bufInsert_keys_mem :
    ∀ (buf : Buf) (k : RecordKey) (r : Record) (k'' : RecordKey),
      k'' ∈ (bufInsert buf k r).map Prod.fst → k'' = k ∨ k'' ∈ buf.map Prod.fst := by
  intro buf k r k'' h
  rw [List.mem_map] at h
  obtain ⟨p, hp, hfst⟩ := h
  rcases bufInsert_mem buf k r p hp with h' | h'
  · exact Or.inr (hfst ▸ List.mem_map_of_mem Prod.fst h')
  · subst h'
    exact Or.inl hfst.symm

/-- Insertion preserves key uniqueness. -/
theorem distinctKeys_bufInsert :
    ∀ (buf : Buf) (k : RecordKey) (r : Record),
      distinctKeys buf → distinctKeys (bufInsert buf k r) := by
  intro buf k r h
  induction buf with
  | nil => simp [bufInsert, distinctKeys]
  | cons q rest ih =>
    obtain ⟨k', r'⟩ := q
    rw [distinctKeys, List.map_cons, List.nodup_cons] at h
    by_cases hk : k' = k
    · subst hk
      have hb : bufInsert ((k', r') :: rest) k' r = (k', r) :: rest := by
        simp [bufInsert]
      rw [distinctKeys, hb, List.map_cons, List.nodup_cons]
      exact h
    · have hb : bufInsert ((k', r') :: rest) k r = (k', r') :: bufInsert rest k r := by
        simp [bufInsert, hk]
      rw [distinctKeys, hb, List.map_cons, List.nodup_cons]
      refine ⟨?_, ih h.2⟩
      intro habs
      rcases bufInsert_keys_mem rest k r k' habs with h' | h'
      · exact hk h'
      · exact h.1 h'

/-- Removal preserves key uniqueness. -/
theorem distinctKeys_bufRemove (buf : Buf) (k : RecordKey)
    (h : distinctKeys buf) : distinctKeys (bufRemove buf k).2 :=
  ((bufRemove_snd_sublist buf k).map Prod.fst).nodup h

/-- Soundness of the emitted pairs: if every buffered record is stored
under its own key, then every pair the loop emits consists of two records
with the same read name, the first classified `First` and the second
classified `Second`. -/
theorem runPairs_pairs_sound (po : Bool) :
    ∀ (recs : List (Except IOErr Record)) (buf : Buf)
      (pairs : List (Record × Record)) (buf' : Buf),
      (∀ k r, (k, r) ∈ buf → key r = some k) →
      runPairsAux po recs buf = Except.ok (pairs, buf') →
      ∀ r1 r2, (r1, r2) ∈ pairs →
        r1.read_name = r2.read_name
        ∧ pairPositionOfFlag r1.flags = some PairPosition.First
        ∧ pairPositionOfFlag r2.flags = some PairPosition.Second := by
  intro recs
  induction recs with
  | nil =>
    intro buf pairs buf' hinv hrun r1 r2 hmem
    rw [runPairsAux] at hrun
    cases hrun
    simp at hmem
  | cons rec rest ih =>
    intro buf pairs buf' hinv hrun r1 r2 hmem
    cases rec with
    | error e => rw [runPairsAux] at hrun; cases hrun
    | ok r =>
      rw [runPairsAux] at hrun
      by_cases hskip : (po && (isSecondary r.flags || isSupplementary r.flags)) = true
      · rw [if_pos hskip] at hrun
        exact ih buf pairs buf' hinv hrun r1 r2 hmem
      · rw [if_neg hskip] at hrun
        cases hmk : mate_key r with
        | none => simp only [hmk] at hrun; cases hrun
        | some mk =>
          simp only [hmk] at hrun
          rcases hrem : bufRemove buf mk with ⟨op, buf2⟩
          cases op with
          | none =>
            simp only [hrem] at hrun
            cases hk : key r with
            | none => simp only [hk] at hrun; cases hrun
            | some k =>
              simp only [hk] at hrun
              refine ih (bufInsert buf k r) pairs buf' ?_ hrun r1 r2 hmem
              intro k' r' hmem'
              rcases bufInsert_mem buf k r (k', r') hmem' with h' | h'
              · exact hinv k' r' h'
              · rw [(Prod.mk.injEq _ _ _ _).mp h' |>.1, (Prod.mk.injEq _ _ _ _).mp h' |>.2]
                exact hk
          | some mate =>
            simp only [hrem] at hrun
            cases hrec : runPairsAux po rest buf2 with
            | error e => simp only [hrec] at hrun; cases hrun
            | ok pb =>
              obtain ⟨pairs0, b0⟩ := pb
              simp only [hrec, Except.map, Except.ok.injEq, Prod.mk.injEq] at hrun
              obtain ⟨hpairs, hbuf⟩ := hrun
              have hkeymate : key mate = some mk :=
                hinv mk mate (bufRemove_fst_mem buf mk mate (by rw [hrem]))
              rw [← hpairs] at hmem
              have hinv2 : ∀ k' r', (k', r') ∈ buf2 → key r' = some k' := by
                intro k' r' h'
                exact hinv k' r' (bufRemove_snd_mem buf mk (k', r') (by rw [hrem]; exact h'))
              rw [mate_key, Option.map_eq_some'] at hmk
              obtain ⟨ppr, hppr, hmkr⟩ := hmk
              rw [key, Option.map_eq_some'] at hkeymate
              obtain ⟨ppm, hppm, hmkm⟩ := hkeymate
              rw [← hmkr] at hmkm
              simp only [Prod.mk.injEq] at hmkm
              obtain ⟨hname, hpp, -⟩ := hmkm
              rw [List.mem_cons] at hmem
              rcases hmem with hhead | htail
              · rw [← hmkr] at hhead
                cases ppr with
                | First =>
                  simp only [PairPosition.mate, Prod.mk.injEq] at hhead
                  obtain ⟨h1, h2⟩ := hhead
                  subst h1
                  subst h2
                  exact ⟨hname.symm, hppr, by rw [hppm, hpp]; rfl⟩
                | Second =>
                  simp only [PairPosition.mate, Prod.mk.injEq] at hhead
                  obtain ⟨h1, h2⟩ := hhead
                  subst h1
                  subst h2
                  exact ⟨hname, by rw [hppm, hpp]; rfl, hppr⟩
              · exact ih buf2 pairs0 b0 hinv2 hrec r1 r2 htail

/-- C4: every pair emitted by the record-pair buffer consists of two records
with the same read name, the first being the mate-1 record and the second
the mate-2 record, regardless of arrival order. -/
theorem C4_emitted_pairs (po : Bool) (recs : List (Except IOErr Record))
    (pairs : List (Record × Record)) (buf' : Buf)
    (h : recordPairs po recs = Except.ok (pairs, buf')) :
    ∀ r1 r2, (r1, r2) ∈ pairs →
      r1.read_name = r2.read_name
      ∧ pairPositionOfFlag r1.flags = some PairPosition.First
      ∧ pairPositionOfFlag r2.flags = some PairPosition.Second :=
  runPairs_pairs_sound po recs [] pairs buf' (by simp) h

/-- C4 witness: a concrete out-of-orderless stream of two mates, paired and
checked. -/
theorem C4_emitted_pairs_witness :
    recordPairs false [Except.ok wRecA, Except.ok wRecB]
      = Except.ok ([(wRecA, wRecB)], [])
    ∧ (wRecA.read_name = wRecB.read_name
      ∧ pairPositionOfFlag wRecA.flags = some PairPosition.First
      ∧ pairPositionOfFlag wRecB.flags = some PairPosition.Second) :=
  ⟨by rfl,
   C4_emitted_pairs false [Except.ok wRecA, Except.ok wRecB] [(wRecA, wRecB)] []
     (by rfl) wRecA wRecB (by simp)⟩

/-- The pairing loop preserves key uniqueness into its final buffer. -/
theorem runPairs_distinct (po : Bool) :
    ∀ (recs : List (Except IOErr Record)) (buf : Buf)
      (pairs : List (Record × Record)) (buf' : Buf),
      distinctKeys buf →
      runPairsAux po recs buf = Except.ok (pairs, buf') →
      distinctKeys buf' := by
  intro recs
  induction recs with
  | nil =>
    intro buf pairs buf' hd hrun
    rw [runPairsAux] at hrun
    cases hrun
    exact hd
  | cons rec rest ih =>
    intro buf pairs buf' hd hrun
    cases rec with
    | error e => rw [runPairsAux] at hrun; cases hrun
    | ok r =>
      rw [runPairsAux] at hrun
      by_cases hskip : (po && (isSecondary r.flags || isSupplementary r.flags)) = true
      · rw [if_pos hskip] at hrun
        exact ih buf pairs buf' hd hrun
      · rw [if_neg hskip] at hrun
        cases hmk : mate_key r with
        | none => simp only [hmk] at hrun; cases hrun
        | some mk =>
          simp only [hmk] at hrun
          rcases hrem : bufRemove buf mk with ⟨op, buf2⟩
          cases op with
          | none =>
            simp only [hrem] at hrun
            cases hk : key r with
            | none => simp only [hk] at hrun; cases hrun
            | some k =>
              simp only [hk] at hrun
              exact ih (bufInsert buf k r) pairs buf' (distinctKeys_bufInsert buf k r hd) hrun
          | some mate =>
            simp only [hrem] at hrun
            cases hrec : runPairsAux po rest buf2 with
            | error e => simp only [hrec] at hrun; cases hrun
            | ok pb =>
              obtain ⟨pairs0, b0⟩ := pb
              simp only [hrec, Except.map, Except.ok.injEq, Prod.mk.injEq] at hrun
              have hd2 : distinctKeys buf2 := by
                have := distinctKeys_bufRemove buf mk hd
                rw [hrem] at this
                exact this
              rw [← hrun.2]
              exact ih buf2 pairs0 b0 hd2 hrec

/-- C8: when a record's mate key misses the buffer, the loop inserts the
record under its own key; the insertion overwrites any record stored under
an equal key and leaves other keys untouched, insertion and removal both
preserve the at-most-one-record-per-key invariant (so every buffer
reachable from the empty one keeps it), and the final buffer of a
successful run keeps it too. -/
theorem C8_insert_overwrites (buf : Buf) (hd : distinctKeys buf) :
    (∀ (k : RecordKey) (r : Record),
      bufLookup (bufInsert buf k r) k = some r
      ∧ distinctKeys (bufInsert buf k r)
      ∧ ∀ k', k' ≠ k → bufLookup (bufInsert buf k r) k' = bufLookup buf k')
    ∧ (∀ k : RecordKey, distinctKeys (bufRemove buf k).2)
    ∧ (∀ (po : Bool) (r : Record) (rest : List (Except IOErr Record))
        (mk k : RecordKey),
        (po && (isSecondary r.flags || isSupplementary r.flags)) = false →
        mate_key r = some mk → (bufRemove buf mk).1 = none → key r = some k →
        runPairsAux po (Except.ok r :: rest) buf
          = runPairsAux po rest (bufInsert buf k r))
    ∧ (∀ (po : Bool) (recs : List (Except IOErr Record))
        (pairs : List (Record × Record)) (buf' : Buf),
        runPairsAux po recs buf = Except.ok (pairs, buf') → distinctKeys buf') := by
  refine ⟨?_, ?_, ?_, ?_⟩
  · intro k r
    exact ⟨bufLookup_bufInsert_self buf k r, distinctKeys_bufInsert buf k r hd,
      fun k' hk' => bufLookup_bufInsert_ne buf k k' r hk'⟩
  · intro k
    exact distinctKeys_bufRemove buf k hd
  · intro po r rest mk k hpo hmk hmiss hk
    rw [runPairsAux, if_neg (by rw [hpo]; exact Bool.false_ne_true)]
    simp only [hmk]
    rcases hrem : bufRemove buf mk with ⟨op, buf2⟩
    rw [hrem] at hmiss
    cases op with
    | some mate => cases hmiss
    | none => simp only [hk]
  · intro po recs pairs buf' hrun
    exact runPairs_distinct po recs buf pairs buf' hd hrun

/-- C8 witness: a concrete overwrite of a duplicate key and the insert step
of the loop, evaluated on a one-entry buffer. -/
theorem C8_insert_overwrites_witness :
    bufLookup (bufInsert [(([65], PairPosition.First, 0, 9, 0, 99, 100), wRecA)]
        ([65], PairPosition.First, 0, 9, 0, 99, 100) wRecC)
        ([65], PairPosition.First, 0, 9, 0, 99, 100) = some wRecC
    ∧ distinctKeys (bufRemove [(([65], PairPosition.First, 0, 9, 0, 99, 100), wRecA)]
        ([65], PairPosition.Second, 0, 99, 0, 9, -100)).2
    ∧ runPairsAux false [Except.ok wRecA] []
        = runPairsAux false [] (bufInsert [] ([65], PairPosition.First, 0, 9, 0, 99, 100) wRecA) :=
  ⟨((C8_insert_overwrites [(([65], PairPosition.First, 0, 9, 0, 99, 100), wRecA)]
      (by simp [distinctKeys])).1 ([65], PairPosition.First, 0, 9, 0, 99, 100) wRecC).1,
   (C8_insert_overwrites [(([65], PairPosition.First, 0, 9, 0, 99, 100), wRecA)]
      (by simp [distinctKeys])).2.1 ([65], PairPosition.Second, 0, 99, 0, 9, -100),
   (C8_insert_overwrites [] (by simp [distinctKeys])).2.2.1 false wRecA []
      ([65], PairPosition.Second, 0, 99, 0, 9, -100)
      ([65], PairPosition.First, 0, 9, 0, 99, 100)
      (by decide) (by rfl) (by rfl) (by rfl)⟩

/-- Incrementing a count keeps all stored counts at least 1. -/
theorem incrCount_pos (c : List (String × Nat)) (g : String)
    (h : ∀ p ∈ c, 1 ≤ p.2) : ∀ p ∈ incrCount c g, 1 ≤ p.2 := by
  induction c with
  | nil =>
    intro p hp
    simp [incrCount] at hp
    simp [hp]
  | cons q rest ih =>
    obtain ⟨k, v⟩ := q
    intro p hp
    by_cases hk : k = g
    · rw [incrCount, if_pos hk] at hp
      rcases List.mem_cons.mp hp with hp | hp
      · subst hp
        have := h (k, v) (List.mem_cons_self _ _)
        omega
      · exact h p (List.mem_cons_of_mem _ hp)
    · rw [incrCount, if_neg hk] at hp
      rcases List.mem_cons.mp hp with hp | hp
      · subst hp
        exact h (k, v) (List.mem_cons_self _ _)
      · exact ih (fun q hq => h q (List.mem_cons_of_mem _ hq)) p hp

/-- Folding count increments keeps all stored counts at least 1. -/
theorem foldl_incrCount_pos :
    ∀ (l : List String) (c : List (String × Nat)),
      (∀ p ∈ c, 1 ≤ p.2) → ∀ p ∈ l.foldl incrCount c, 1 ≤ p.2 := by
  intro l
  induction l with
  | nil =>
    intro c h
    simpa using h
  | cons g rest ih =>
    intro c h
    rw [List.foldl_cons]
    exact ih _ (incrCount_pos c g h)

/-- The accounting rule keeps all stored counts at least 1. -/
theorem update_intersections_countsPos (ctx : Context) (S : Finset String)
    (h : countsPos ctx) : countsPos (update_intersections ctx S) := by
  rw [update_intersections]
  split_ifs with h1 h2 h3
  · exact h
  · intro p hp
    exact foldl_incrCount_pos _ ctx.counts h p hp
  · exact h
  · exact h

/-- The single-record filter never touches the counts map. -/
theorem filterRecord_counts (f : Filter) (ctx : Context) (r : Record) :
    (filterRecord f ctx r).1.counts = ctx.counts := by
  rw [filterRecord]
  split_ifs <;> rfl

/-- The pair filter never touches the counts map. -/
theorem filterPair_counts (f : Filter) (ctx : Context) (r1 r2 : Record) :
    (filterPair f ctx r1 r2).1.counts = ctx.counts := by
  simp only [filterPair]
  split_ifs with h1 h2
  · exact filterRecord_counts f ctx r1
  · exact filterRecord_counts f ctx r2
  · rfl

/-- The tree resolver never touches the counts map. -/
theorem get_tree_counts (ctx : Context) (feats : Features)
    (refs : ReferenceSequences) (ref_id : Int) (ctx' : Context) (o : Option TreeT)
    (h : get_tree ctx feats refs ref_id = Except.ok (ctx', o)) :
    ctx'.counts = ctx.counts := by
  rw [get_tree] at h
  cases hr : get_reference refs ref_id with
  | error e => rw [hr] at h; cases h
  | ok rs =>
    simp only [hr] at h
    cases hf : feats rs.1 with
    | some t =>
      simp only [hf] at h
      cases h
      rfl
    | none =>
      simp only [hf] at h
      cases h
      rfl

/-- Processing one single-end record keeps all stored counts at least 1. -/
theorem count_single_end_record_countsPos (proj : Projector) (ctx : Context)
    (feats : Features) (refs : ReferenceSequences) (fil : Filter)
    (spec : StrandSpecification) (record : Record) (ctx' : Context)
    (h : countsPos ctx)
    (hrun : count_single_end_record proj ctx feats refs fil spec record
      = Except.ok ctx') : countsPos ctx' := by
  have hfpos : countsPos (filterRecord fil ctx record).1 := by
    intro p hp
    exact h p (filterRecord_counts fil ctx record ▸ hp)
  simp only [count_single_end_record] at hrun
  by_cases hb : (filterRecord fil ctx record).2 = true
  · rw [if_pos hb] at hrun
    cases hrun
    exact hfpos
  · rw [if_neg hb] at hrun
    cases hgt : get_tree (filterRecord fil ctx record).1 feats refs record.ref_id with
    | error e => simp only [hgt] at hrun; cases hrun
    | ok co =>
      obtain ⟨ctx2, o⟩ := co
      have h2 : countsPos ctx2 := by
        intro p hp
        exact hfpos p (get_tree_counts _ feats refs record.ref_id ctx2 o hgt ▸ hp)
      cases o with
      | none =>
        simp only [hgt] at hrun
        cases hrun
        exact h2
      | some tree =>
        simp only [hgt] at hrun
        cases hrun
        exact update_intersections_countsPos ctx2 _ h2

/-- The single-end record loop keeps all stored counts at least 1. -/
theorem countSingleLoop_countsPos (proj : Projector) (feats : Features)
    (refs : ReferenceSequences) (fil : Filter) (spec : StrandSpecification) :
    ∀ (recs : List (Except IOErr Record)) (ctx ctx' : Context),
      countsPos ctx →
      countSingleLoop proj feats refs fil spec recs ctx = Except.ok ctx' →
      countsPos ctx' := by
  intro recs
  induction recs with
  | nil =>
    intro ctx ctx' h hrun
    rw [countSingleLoop] at hrun
    cases hrun
    exact h
  | cons rec rest ih =>
    intro ctx ctx' h hrun
    cases rec with
    | error e => rw [countSingleLoop] at hrun; cases hrun
    | ok record =>
      rw [countSingleLoop] at hrun
      cases hone : count_single_end_record proj ctx feats refs fil spec record with
      | error e => simp only [hone] at hrun; cases hrun
      | ok ctx2 =>
        simp only [hone] at hrun
        exact ih ctx2 ctx'
          (count_single_end_record_countsPos proj ctx feats refs fil spec record ctx2 h hone)
          hrun

/-- Processing one pair keeps all stored counts at least 1. -/
theorem processPair_countsPos (proj : Projector) (feats : Features)
    (refs : ReferenceSequences) (fil : Filter) (spec : StrandSpecification)
    (ctx : Context) (r1 r2 : Record) (ctx' : Context)
    (h : countsPos ctx)
    (hrun : processPair proj feats refs fil spec ctx r1 r2 = Except.ok ctx') :
    countsPos ctx' := by
  have hfpos : countsPos (filterPair fil ctx r1 r2).1 := by
    intro p hp
    exact h p (filterPair_counts fil ctx r1 r2 ▸ hp)
  simp only [processPair] at hrun
  by_cases hb : (filterPair fil ctx r1 r2).2 = true
  · rw [if_pos hb] at hrun
    cases hrun
    exact hfpos
  · rw [if_neg hb] at hrun
    cases hgt : get_tree (filterPair fil ctx r1 r2).1 feats refs r1.ref_id with
    | error e => simp only [hgt] at hrun; cases hrun
    | ok co =>
      obtain ⟨ctx2, o⟩ := co
      have h2 : countsPos ctx2 := by
        intro p hp
        exact hfpos p (get_tree_counts _ feats refs r1.ref_id ctx2 o hgt ▸ hp)
      cases o with
      | none =>
        simp only [hgt] at hrun
        cases hrun
        exact h2
      | some tree1 =>
        simp only [hgt] at hrun
        cases hgt2 : get_tree ctx2 feats refs r2.ref_id with
        | error e => simp only [hgt2] at hrun; cases hrun
        | ok co2 =>
          obtain ⟨ctx3, o2⟩ := co2
          have h3 : countsPos ctx3 := by
            intro p hp
            exact h2 p (get_tree_counts ctx2 feats refs r2.ref_id ctx3 o2 hgt2 ▸ hp)
          cases o2 with
          | none =>
            simp only [hgt2] at hrun
            cases hrun
            exact h3
          | some tree2 =>
            simp only [hgt2] at hrun
            cases hrun
            exact update_intersections_countsPos ctx3 _ h3

/-- The pair loop keeps all stored counts at least 1. -/
theorem countPairsLoop_countsPos (proj : Projector) (feats : Features)
    (refs : ReferenceSequences) (fil : Filter) (spec : StrandSpecification) :
    ∀ (pairs : List (Record × Record)) (ctx ctx' : Context),
      countsPos ctx →
      countPairsLoop proj feats refs fil spec pairs ctx = Except.ok ctx' →
      countsPos ctx' := by
  intro pairs
  induction pairs with
  | nil =>
    intro ctx ctx' h hrun
    rw [countPairsLoop] at hrun
    cases hrun
    exact h
  | cons pr rest ih =>
    obtain ⟨r1, r2⟩ := pr
    intro ctx ctx' h hrun
    rw [countPairsLoop] at hrun
    cases hone : processPair proj feats refs fil spec ctx r1 r2 with
    | error e => simp only [hone] at hrun; cases hrun
    | ok ctx2 =>
      simp only [hone] at hrun
      exact ih ctx2 ctx'
        (processPair_countsPos proj feats refs fil spec ctx r1 r2 ctx2 h hone) hrun

/-- The singleton loop keeps all stored counts at least 1. -/
theorem countSingletonsLoop_countsPos (proj : Projector) (feats : Features)
    (refs : ReferenceSequences) (fil : Filter) (spec : StrandSpecification) :
    ∀ (recs : List (Except IOErr Record)) (ctx ctx' : Context),
      countsPos ctx →
      countSingletonsLoop proj feats refs fil spec recs ctx = Except.ok ctx' →
      countsPos ctx' := by
  intro recs
  induction recs with
  | nil =>
    intro ctx ctx' h hrun
    rw [countSingletonsLoop] at hrun
    cases hrun
    exact h
  | cons rec rest ih =>
    intro ctx ctx' h hrun
    cases rec with
    | error e => rw [countSingletonsLoop] at hrun; cases hrun
    | ok record =>
      have hfpos : countsPos (filterRecord fil ctx record).1 := by
        intro p hp
        exact h p (filterRecord_counts fil ctx record ▸ hp)
      simp only [countSingletonsLoop] at hrun
      by_cases hb : (filterRecord fil ctx record).2 = true
      · rw [if_pos hb] at hrun
        exact ih _ ctx' hfpos hrun
      · rw [if_neg hb] at hrun
        cases hpp : pairPositionOfFlag record.flags with
        | none => simp only [hpp] at hrun; cases hrun
        | some pp =>
          simp only [hpp] at hrun
          cases hgt : get_tree (filterRecord fil ctx record).1 feats refs record.ref_id with
          | error e => simp only [hgt] at hrun; cases hrun
          | ok co =>
            obtain ⟨ctx2, o⟩ := co
            have h2 : countsPos ctx2 := by
              intro p hp
              exact hfpos p (get_tree_counts _ feats refs record.ref_id ctx2 o hgt ▸ hp)
            cases o with
            | none =>
              simp only [hgt] at hrun
              exact ih _ ctx' h2 hrun
            | some tree =>
              simp only [hgt] at hrun
              exact ih _ ctx' (update_intersections_countsPos ctx2 _ h2) hrun

/-- C10: every counting entry point only produces Contexts in which every
gene present in the counts map has a count of at least 1 — count entries
are created only at the moment a gene is counted. -/
theorem C10_counts_positive :
    ∀ (proj : Projector) (feats : Features) (refs : ReferenceSequences)
      (fil : Filter) (spec : StrandSpecification),
      (∀ (recs : List (Except IOErr Record)) (ctx : Context),
        count_single_end_records proj recs feats refs fil spec = Except.ok ctx →
        countsPos ctx)
      ∧ (∀ (recs : List (Except IOErr Record)) (ctx : Context) (buf : Buf),
        count_paired_end_records proj recs feats refs fil spec = Except.ok (ctx, buf) →
        countsPos ctx)
      ∧ (∀ (recs : List (Except IOErr Record)) (ctx : Context),
        count_paired_end_record_singletons proj recs feats refs fil spec = Except.ok ctx →
        countsPos ctx) := by
  intro proj feats refs fil spec
  have hdef : countsPos Context.default := by
    intro p hp
    simp [Context.default] at hp
  refine ⟨?_, ?_, ?_⟩
  · intro recs ctx h
    exact countSingleLoop_countsPos proj feats refs fil spec recs Context.default ctx hdef h
  · intro recs ctx buf h
    rw [count_paired_end_records] at h
    cases hrp : runPairsAux (!fil.with_secondary_records && !fil.with_supplementary_records)
        recs [] with
    | error e => simp only [hrp] at h; cases h
    | ok pb =>
      obtain ⟨pairs, buf0⟩ := pb
      simp only [hrp] at h
      cases hcl : countPairsLoop proj feats refs fil spec pairs Context.default with
      | error e => simp only [hcl] at h; cases h
      | ok ctx0 =>
        simp only [hcl, Except.ok.injEq, Prod.mk.injEq] at h
        exact h.1 ▸ countPairsLoop_countsPos proj feats refs fil spec pairs Context.default
          ctx0 hdef hcl
  · intro recs ctx h
    exact countSingletonsLoop_countsPos proj feats refs fil spec recs Context.default ctx hdef h

/-- C10 witness: the three entry points evaluated on concrete inputs. -/
theorem C10_counts_positive_witness :
    countsPos Context.default
    ∧ countsPos { Context.default with no_feature := 1 }
    ∧ countsPos { Context.default with no_feature := 2 } :=
  ⟨(C10_counts_positive wProj wFeatures wRefs wFilter StrandSpecification.None).1
      [] Context.default (by rfl),
   (C10_counts_positive wProj wFeatures wRefs wFilter StrandSpecification.None).2.1
      [Except.ok wRecA, Except.ok wRecB] { Context.default with no_feature := 1 } [] (by rfl),
   (C10_counts_positive wProj wFeatures wRefs wFilter StrandSpecification.None).2.2
      [Except.ok wRecA, Except.ok wRecB] { Context.default with no_feature := 2 } (by rfl)⟩

end Squab
